import Mathlib

/-!
# Verification of the brainwrought timing reconstructor, engine contracts and job lifecycle

This file embeds, in Lean, the parts of the `zeerafle/brainwrought` repository
that the specification's claims are about:

* the character-to-word timing reconstruction scan and its gap-bridging
  post-pass inside `voice_and_timing_node` (`src/nodes/production.py`,
  lines 399-440);
* the partial-state outputs and state reads of the meme nodes
  (`src/nodes/meme.py`);
* the job status lifecycle of the Gradio job queue (`src/app_space.py`);
* spec-modelled fragments of the workflow engine (recursion-bounded tool
  loop, state-merging run loop) whose implementation lives in the external
  graph library and is therefore absent from the source tree.

Python floating-point timestamps are modelled as rationals (`ℚ`): the claims
under study are about ordering and equality of timestamp values, not about
rounding.  Python strings holding a single character are modelled as `Char`,
and word strings as `List Char`.
-/

namespace Brainwrought

/-! ## Timing records (production.py lines 386-395)

A character record `{character, start, end}` and a word record
`{word, start, end}`.  The Python dict key `"end"` is a Lean keyword, so the
field is named `endTime` here. -/

/-- One entry of `timestamps` in `voice_and_timing_node`:
`{"character": c, "start": s, "end": e}`. -/
structure CharTiming where
  character : Char
  start : ℚ
  endTime : ℚ
  deriving DecidableEq, Repr

/-- One entry of `word_timestamps`: `{"word": w, "start": s, "end": e}`. -/
structure WordTiming where
  word : List Char
  start : ℚ
  endTime : ℚ
  deriving DecidableEq, Repr

/-! ## The word-reconstruction scan (production.py lines 399-429)

The Python loop keeps four pieces of mutable state: the output list
`word_timestamps`, the buffer `current_word`, `word_start` (initialised to
`0.0`) and `word_end` (first written on the first non-space character; it is
only ever read after at least one non-space character has been processed, so
initialising it to `0` is unobservable). -/

/-- The mutable state of the scan loop. -/
structure ScanState where
  words : List WordTiming
  currentWord : List Char
  wordStart : ℚ
  wordEnd : ℚ
  deriving DecidableEq, Repr

/-- Initial scan state: `word_timestamps = []`, `current_word = ""`,
`word_start = 0.0` (production.py lines 400-402). -/
def scanInit : ScanState := ⟨[], [], 0, 0⟩

/-- Python whitespace: the set of characters `str.strip()` removes, i.e.
those for which `str.isspace()` holds — the ASCII controls `\t \n \x0b \x0c
\r`, the separators `\x1c`-`\x1f`, the space, NEL `\x85`, NBSP `\xa0`, Ogham
space `\x1680`, the Unicode spaces `\x2000`-`\x200a`, the line and paragraph
separators `\x2028`/`\x2029`, narrow NBSP `\x202f`, medium mathematical
space `\x205f` and ideographic space `\x3000`.  (Lean's `Char.isWhitespace`
covers only a strict subset of these, so it would be unfaithful here.) -/
def pyWhitespace (c : Char) : Bool :=
  let n := c.toNat
  decide ((0x09 ≤ n ∧ n ≤ 0x0d) ∨ (0x1c ≤ n ∧ n ≤ 0x1f) ∨ n = 0x20 ∨ n = 0x85
    ∨ n = 0xa0 ∨ n = 0x1680 ∨ (0x2000 ≤ n ∧ n ≤ 0x200a) ∨ n = 0x2028 ∨ n = 0x2029
    ∨ n = 0x202f ∨ n = 0x205f ∨ n = 0x3000)

/-- One iteration of the `for ts in timestamps` loop (production.py
lines 404-423).  `char.strip()` on a single character is truthy exactly when
the character is not Python whitespace (`pyWhitespace`); `char == " "`
compares against the single space character. -/
def scanStep (s : ScanState) (ts : CharTiming) : ScanState :=
  -- `if not current_word and char.strip(): word_start = ts["start"]`
  let ws := if s.currentWord = [] ∧ ¬pyWhitespace ts.character then ts.start else s.wordStart
  if ts.character = ' ' then
    if s.currentWord ≠ [] then
      -- close the word using the END of the space (production.py line 411-419)
      { words := s.words ++ [⟨s.currentWord, ws, ts.endTime⟩]
        currentWord := []
        wordStart := ws
        wordEnd := s.wordEnd }
    else
      { s with wordStart := ws }
  else
    -- `current_word += char; word_end = ts["end"]`
    { s with currentWord := s.currentWord ++ [ts.character]
             wordStart := ws
             wordEnd := ts.endTime }

/-- Folding the scan loop over the whole character stream. -/
def scanList (chars : List CharTiming) : ScanState :=
  chars.foldl scanStep scanInit

/-- The final flush: `if current_word: word_timestamps.append(...)`
(production.py lines 425-429). -/
def flushScan (s : ScanState) : List WordTiming :=
  if s.currentWord ≠ [] then s.words ++ [⟨s.currentWord, s.wordStart, s.wordEnd⟩]
  else s.words

/-- The complete word reconstruction: scan the character stream, then flush
any pending buffer (production.py lines 399-429). -/
def wordsFromChars (chars : List CharTiming) : List WordTiming :=
  flushScan (scanList chars)

/-! ## The gap-bridging post-pass (production.py lines 431-440) -/

/-- The body of one iteration of the bridging loop: if
`0 < next.start - cur.end < 0.5` then `cur.end = next.start`, else `cur` is
untouched (production.py lines 437-440). -/
def bridgeStep (cur next : WordTiming) : WordTiming :=
  let gap := next.start - cur.endTime
  if 0 < gap ∧ gap < 1/2 then { cur with endTime := next.start } else cur

/-- The in-place loop `for i in range(len(word_timestamps) - 1)` rewrites
`word_timestamps[i].end` only at iteration `i`, from values that earlier
iterations never touched (`word[i].end` is first written at iteration `i`,
and starts are never written), so it is this structural recursion. -/
def bridgeGaps : List WordTiming → List WordTiming
  | [] => []
  | [w] => [w]
  | w1 :: w2 :: rest => bridgeStep w1 w2 :: bridgeGaps (w2 :: rest)

/-- The full `word_timestamps` computation of `voice_and_timing_node`:
reconstruction followed by gap bridging (production.py lines 399-440). -/
def wordTimestamps (chars : List CharTiming) : List WordTiming :=
  bridgeGaps (wordsFromChars chars)

/-! ## Auxiliary notions for reasoning about the scan -/

/-- The maximal suffix of the stream containing no space character: exactly
the characters accumulated in `current_word` after processing the stream. -/
def trailingRun (cs : List CharTiming) : List CharTiming :=
  (cs.reverse.takeWhile fun c => c.character != ' ').reverse

/-- A character is "clean" when it is either the space character or not
Python whitespace at all.  The source splits words only on `char == " "`,
while `char.strip()` (truthiness of the word-start update) tests Python
whitespace; the two tests agree exactly on clean characters. -/
def cleanChar (c : CharTiming) : Prop :=
  pyWhitespace c.character → c.character = ' '

instance (c : CharTiming) : Decidable (cleanChar c) :=
  inferInstanceAs (Decidable (pyWhitespace c.character → c.character = ' '))

/-! ## Concrete character streams used by the claims -/

/-- Character timings for the stream `"hi there"` (the spec's test vector),
with integral second marks. The space character is entry 2, ending at 3. -/
def hiThere : List CharTiming :=
  [⟨'h', 0, 1⟩, ⟨'i', 1, 2⟩, ⟨' ', 2, 3⟩,
   ⟨'t', 3, 4⟩, ⟨'h', 4, 5⟩, ⟨'e', 5, 6⟩, ⟨'r', 6, 7⟩, ⟨'e', 7, 8⟩]

/-- A stream whose only word begins with a tab: `char.strip()` is falsy on
the tab, so `word_start` keeps its initial value `0.0`. -/
def tabWordStream : List CharTiming := [⟨'\t', 5, 6⟩, ⟨' ', 7, 8⟩]

/-- A stream with a tab between two letters: the tab is not `" "`, so it is
appended to the word buffer instead of terminating it. -/
def tabInsideStream : List CharTiming := [⟨'a', 0, 1⟩, ⟨'\t', 1, 2⟩, ⟨'b', 2, 3⟩]

/-- A stream with monotone starts and per-character `end ≥ start`, but
negative timestamps: the tab-led word is closed with the stale initial
`word_start = 0.0`, above the closing space's end `-2`. -/
def negativeTimeStream : List CharTiming := [⟨'\t', -5, -4⟩, ⟨' ', -3, -2⟩]

/-- A stream containing a run of three consecutive spaces. -/
def multiSpaceStream : List CharTiming :=
  [⟨'a', 0, 1⟩, ⟨' ', 1, 2⟩, ⟨' ', 2, 3⟩, ⟨' ', 3, 4⟩, ⟨'b', 4, 5⟩]

/-- Two words separated by a `0.2` second gap (spec's bridging test). -/
def gapSmallPair : List WordTiming := [⟨['a'], 0, 1⟩, ⟨['b'], 12/10, 2⟩]

/-- Two words separated by a `0.8` second gap (spec's bridging test). -/
def gapLargePair : List WordTiming := [⟨['a'], 0, 1⟩, ⟨['b'], 18/10, 2⟩]

/-! ## The bounded tool-calling loop (meme.py lines 85-111 and 131-135)

`social_media_trends_node` wires an `agent` node back to itself through the
`should_continue` router, whose labels are `"continue"` (to the `tools`
node) and `"respond"` (exit), and invokes the compiled graph with
`{"recursion_limit": 15}`.  The loop engine itself is provided by the
external graph library and is absent from the source tree. -/

/-- The two labels returned by `should_continue` (meme.py lines 85-91):
`cont` stands for the label `"continue"`, `respond` for `"respond"`. -/
inductive RouteLabel where
  | cont
  | respond
  deriving DecidableEq, Repr

/-- Fatal run-level errors of the engine (spec §7 taxonomy). -/
inductive EngineError where
  | recursionLimitExceeded
  deriving DecidableEq, Repr

/-- Modelled from the spec: the recursion-bounded loop enforcement lives in
the external graph library, not under `src/`; only the wiring and the
configured limit (`{"recursion_limit": 15}`, meme.py line 134) are in the
source.  Per spec §4.1, the engine runs the agent node, evaluates the
router, follows `continue` back through the tools node or exits on
`respond`, and `RecursionLimitExceeded` is fatal for the run once the
iteration count exceeds the caller-configured maximum. -/
def loopSteps : List RouteLabel → Nat → Nat → Except EngineError Nat
  | [], iters, _ => .ok iters
  | .respond :: _, iters, _ => .ok iters
  | .cont :: rest, iters, limit =>
      if iters + 1 > limit then .error .recursionLimitExceeded
      else loopSteps rest (iters + 1) limit

/-- Modelled from the spec: run the bounded agent/tools loop against a
caller-configured maximum iteration count, feeding it the routing decisions
the router produces, starting from zero completed iterations. -/
def runBoundedLoop (limit : Nat) (decisions : List RouteLabel) : Except EngineError Nat :=
  loopSteps decisions 0 limit

/-! ## State values, node outputs and the run loop (spec §4.2, meme.py) -/

/-- A pipeline-state value: enough of Python's value space for the claims
(strings, booleans and `None`). -/
inductive SValue where
  | str (s : String)
  | boolean (b : Bool)
  | null
  deriving DecidableEq, Repr

/-- The pipeline `State`: an ordered mapping from string keys to values
(spec §3), modelled as an association list in insertion order. -/
abbrev PState : Type := List (String × SValue)

/-- Writing one key, dict-style: an existing key is overwritten in place, a
new key is appended at the end. -/
def setKey (s : PState) (k : String) (v : SValue) : PState :=
  if s.any (fun p => p.1 == k) then
    s.map (fun p => if p.1 == k then (k, v) else p)
  else
    s ++ [(k, v)]

/-- Reading one key with default `None`: Python's `state.get(key)`.  A key is
present in the state exactly when this is not `none`. -/
def getKey (s : PState) (k : String) : Option SValue :=
  (s.find? (fun p => p.1 == k)).map (·.2)

/-- Merging a node's partial-state output into the state, key by key in
output order (append/overwrite semantics of spec §3). -/
def mergeOut (s : PState) (out : PState) : PState :=
  out.foldl (fun acc kv => setKey acc kv.1 kv.2) s

/-- Result of executing one node: either a partial state (the node caught
any collaborator failure internally and reports data, possibly including an
`"error"` key), or an unrecoverable raise. -/
inductive NodeResult where
  | ok (out : PState)
  | raised
  deriving DecidableEq, Repr

/-- Terminal status of an engine run (spec §7). -/
inductive RunStatus where
  | completed
  | failed
  deriving DecidableEq, Repr

/-- Modelled from the spec: the sequencing engine is the external graph
library, absent from `src/`.  Per spec §4.2 the engine dispatches nodes in
order, merges each completed node's partial output into the state, completes
when no nodes remain, and on an unrecoverable raise stops dispatching and
surfaces failure with the last-known state. -/
def runEngine : List NodeResult → PState → RunStatus × PState
  | [], s => (.completed, s)
  | .ok out :: rest, s => runEngine rest (mergeOut s out)
  | .raised :: _, s => (.failed, s)

/-! ## The meme nodes' writes and reads (meme.py) -/

/-- The partial state returned by `social_media_trends_node` on success
(meme.py lines 139-142): the analysis is written under `"trends_analysis"`. -/
def trendsNodeSuccessOutput (v : SValue) : PState :=
  [("trends_analysis", v), ("trends_analysis_complete", .boolean true)]

/-- The partial state returned by `social_media_trends_node` when it catches
its collaborator's failure (meme.py lines 149-153): the error is reported as
data under the `"error"` key. -/
def trendsNodeErrorOutput (e : String) : PState :=
  [("trends_analysis", .null), ("trends_analysis_complete", .boolean false),
   ("error", .str e)]

/-- The trend-analysis input read by `hook_concept_node`
(meme.py line 277): `state.get("trend_analysis")` — no trailing `s`. -/
def hookConceptTrendInput (s : PState) : Option SValue :=
  getKey s "trend_analysis"

/-- The trend-analysis input read by `meme_concept_node`
(meme.py line 310): `state.get("trend_analysis")` — no trailing `s`. -/
def memeConceptTrendInput (s : PState) : Option SValue :=
  getKey s "trend_analysis"

/-! ## The job status lifecycle (app_space.py)

Job statuses are the strings `"PENDING" | "RUNNING" | "COMPLETED" |
"FAILED" | "INTERRUPTED"` (app_space.py line 77).  The spec names them in
lowercase. -/

/-- The startup crash-detection sweep applied to each stored job
(`recover_incomplete_jobs`, app_space.py lines 109-122): a `RUNNING` job is
forcibly marked `INTERRUPTED`; any other status is left unchanged. -/
def recoverSweepStatus (st : String) : String :=
  if st = "RUNNING" then "INTERRUPTED" else st

/-- The job statuses reachable through the application's actual call
structure: `create_job` writes `PENDING` (line 77); `run_job` — invoked by
`enqueue_job` right after creation (lines 262-263) — writes `RUNNING`
(line 174) and then `COMPLETED` (line 204) or, on any exception, `FAILED`
(line 213); `recover_incomplete_jobs` applies the sweep to any stored job at
process start (line 125). -/
inductive JobReachable : String → Prop where
  | created : JobReachable "PENDING"
  | started : JobReachable "PENDING" → JobReachable "RUNNING"
  | finishedOk : JobReachable "RUNNING" → JobReachable "COMPLETED"
  | finishedErr : JobReachable "RUNNING" → JobReachable "FAILED"
  | swept (s : String) : JobReachable s → JobReachable (recoverSweepStatus s)

end Brainwrought


namespace Brainwrought

theorem scanList_snoc (cs : List CharTiming) (c : CharTiming) :
    scanList (cs ++ [c]) = scanStep (scanList cs) c := by
  simp [scanList, List.foldl_append]

theorem trailingRun_nil : trailingRun [] = [] := rfl

theorem trailingRun_snoc_space {c : CharTiming} (p : List CharTiming)
    (hc : c.character = ' ') : trailingRun (p ++ [c]) = [] := by
  simp [trailingRun, List.takeWhile_cons, hc]

theorem trailingRun_snoc_nonspace {c : CharTiming} (p : List CharTiming)
    (hc : c.character ≠ ' ') : trailingRun (p ++ [c]) = trailingRun p ++ [c] := by
  simp [trailingRun, List.takeWhile_cons, hc]

theorem scanList_currentWord (cs : List CharTiming) :
    (scanList cs).currentWord = (trailingRun cs).map (·.character) := by
  induction cs using List.reverseRecOn with
  | nil => rfl
  | append_singleton p c ih =>
      rw [scanList_snoc]
      by_cases hc : c.character = ' '
      · rw [trailingRun_snoc_space p hc]
        simp only [scanStep, hc, if_true, List.map_nil]
        split <;> simp_all
      · rw [trailingRun_snoc_nonspace p hc]
        simp only [scanStep, hc, if_false, List.map_append]
        simp [ih]

end Brainwrought

namespace Brainwrought

theorem scanStep_space_flush {s : ScanState} {ts : CharTiming}
    (hc : ts.character = ' ') (hbuf : s.currentWord ≠ []) :
    scanStep s ts = ⟨s.words ++ [⟨s.currentWord, s.wordStart, ts.endTime⟩], [], s.wordStart, s.wordEnd⟩ := by
  have hw : pyWhitespace ts.character = true := by rw [hc]; decide
  simp [scanStep, hc, hbuf, hw]

theorem scanStep_space_skip {s : ScanState} {ts : CharTiming}
    (hc : ts.character = ' ') (hbuf : s.currentWord = []) :
    scanStep s ts = s := by
  have hw : pyWhitespace ts.character = true := by rw [hc]; decide
  cases s
  simp_all [scanStep]

theorem scanStep_char {s : ScanState} {ts : CharTiming} (hc : ts.character ≠ ' ') :
    scanStep s ts = ⟨s.words, s.currentWord ++ [ts.character],
      (if s.currentWord = [] ∧ ¬pyWhitespace ts.character then ts.start else s.wordStart),
      ts.endTime⟩ := by
  simp [scanStep, hc]

end Brainwrought

namespace Brainwrought

theorem scanList_wordStart (cs : List CharTiming) (hclean : ∀ x ∈ cs, cleanChar x) :
    ∀ d ds, trailingRun cs = d :: ds → (scanList cs).wordStart = d.start := by
  induction cs using List.reverseRecOn with
  | nil => intro d ds ht; simp [trailingRun_nil] at ht
  | append_singleton p c ih =>
      intro d ds ht
      have hcleanp : ∀ x ∈ p, cleanChar x := fun x hx => hclean x (by simp [hx])
      by_cases hc : c.character = ' '
      · rw [trailingRun_snoc_space p hc] at ht
        exact absurd ht (by simp)
      · have hcw : ¬pyWhitespace c.character := fun hw => hc (hclean c (by simp) hw)
        rw [trailingRun_snoc_nonspace p hc] at ht
        rw [scanList_snoc, scanStep_char hc]
        rcases hp : trailingRun p with _ | ⟨d1, ds1⟩
        · have hbuf : (scanList p).currentWord = [] := by rw [scanList_currentWord, hp]; rfl
          rw [hp, List.nil_append] at ht
          cases ht
          simp [hbuf, hcw]
        · have hbuf : (scanList p).currentWord ≠ [] := by rw [scanList_currentWord, hp]; simp
          rw [hp, List.cons_append] at ht
          injection ht with h1 h2
          simp only [hbuf, false_and, if_false]
          exact ih hcleanp d ds1 (h1 ▸ hp)

theorem scan_close_on_space (p : List CharTiming) (c : CharTiming)
    (hclean : ∀ x ∈ p, cleanChar x) (hc : c.character = ' ')
    (d : CharTiming) (ds : List CharTiming) (ht : trailingRun p = d :: ds) :
    (scanList (p ++ [c])).words
      = (scanList p).words ++ [⟨(d :: ds).map (·.character), d.start, c.endTime⟩] := by
  have hbuf : (scanList p).currentWord = (d :: ds).map (·.character) := by
    rw [scanList_currentWord, ht]
  rw [scanList_snoc, scanStep_space_flush hc (by rw [hbuf]; simp)]
  rw [hbuf, scanList_wordStart p hclean d ds ht]

theorem scanStep_space_clears (s : ScanState) (ts : CharTiming)
    (hc : ts.character = ' ') : (scanStep s ts).currentWord = [] := by
  by_cases hbuf : s.currentWord = []
  · rw [scanStep_space_skip hc hbuf]; exact hbuf
  · rw [scanStep_space_flush hc hbuf]

theorem scan_inv_aux (cs : List CharTiming) (s : ScanState)
    (h1 : ∀ w ∈ s.words, w.word ≠ [] ∧ ' ' ∉ w.word) (h2 : ' ' ∉ s.currentWord) :
    (∀ w ∈ (cs.foldl scanStep s).words, w.word ≠ [] ∧ ' ' ∉ w.word)
      ∧ ' ' ∉ (cs.foldl scanStep s).currentWord := by
  induction cs generalizing s with
  | nil => exact ⟨h1, h2⟩
  | cons c rest ih =>
      rw [List.foldl_cons]
      by_cases hc : c.character = ' '
      · by_cases hbuf : s.currentWord = []
        · rw [scanStep_space_skip hc hbuf]; exact ih s h1 h2
        · rw [scanStep_space_flush hc hbuf]
          refine ih _ ?_ (by simp)
          intro w hw
          rcases List.mem_append.mp hw with h | h
          · exact h1 w h
          · rcases List.mem_singleton.mp h with rfl
            exact ⟨hbuf, h2⟩
      · rw [scanStep_char hc]
        refine ih _ h1 ?_
        intro hmem
        rcases List.mem_append.mp hmem with h | h
        · exact h2 h
        · exact hc (List.mem_singleton.mp h).symm

theorem wordsFromChars_sound (cs : List CharTiming) :
    ∀ w ∈ wordsFromChars cs, w.word ≠ [] ∧ ' ' ∉ w.word := by
  have h := scan_inv_aux cs scanInit (by simp [scanInit]) (by simp [scanInit])
  intro w hw
  unfold wordsFromChars flushScan at hw
  split at hw
  · rcases List.mem_append.mp hw with hx | hx
    · exact h.1 w hx
    · rcases List.mem_singleton.mp hx with rfl
      exact ⟨by assumption, h.2⟩
  · exact h.1 w hw

theorem wordsFromChars_snoc_nonspace (cs : List CharTiming) (c : CharTiming)
    (hc : c.character ≠ ' ') :
    ∃ w, (wordsFromChars (cs ++ [c])).getLast? = some w
      ∧ w.endTime = c.endTime ∧ w.word ≠ [] := by
  unfold wordsFromChars flushScan
  rw [scanList_snoc, scanStep_char hc]
  rw [if_pos (by simp)]
  rw [List.getLast?_concat]
  exact ⟨_, rfl, rfl, by simp⟩

end Brainwrought

namespace Brainwrought

theorem bridgeStep_word (cur next : WordTiming) : (bridgeStep cur next).word = cur.word := by
  simp only [bridgeStep]
  split <;> rfl

theorem bridgeStep_start (cur next : WordTiming) : (bridgeStep cur next).start = cur.start := by
  simp only [bridgeStep]
  split <;> rfl

theorem bridgeStep_endTime_le (cur next : WordTiming) :
    cur.endTime ≤ (bridgeStep cur next).endTime := by
  simp only [bridgeStep]
  split
  · rename_i hcn
    show cur.endTime ≤ next.start
    linarith [sub_pos.mp hcn.1]
  · exact le_refl _

theorem bridgeStep_absorb (cur next h : WordTiming) (hs : h.start = next.start) :
    bridgeStep (bridgeStep cur next) h = bridgeStep cur next := by
  by_cases hc : 0 < next.start - cur.endTime ∧ next.start - cur.endTime < 1/2
  · have h1 : bridgeStep cur next = { cur with endTime := next.start } := by
      simp only [bridgeStep]
      rw [if_pos hc]
    rw [h1]
    simp only [bridgeStep]
    rw [if_neg (by rw [hs]; simp)]
  · have h1 : bridgeStep cur next = cur := by
      simp only [bridgeStep]
      rw [if_neg hc]
    rw [h1]
    simp only [bridgeStep]
    rw [if_neg (by rw [hs]; exact hc)]

theorem bridgeGaps_cons_shape (w : WordTiming) (l : List WordTiming) :
    ∃ h t, bridgeGaps (w :: l) = h :: t ∧ h.start = w.start ∧ h.word = w.word
      ∧ w.endTime ≤ h.endTime := by
  cases l with
  | nil => exact ⟨w, [], rfl, rfl, rfl, le_refl _⟩
  | cons w2 rest =>
      exact ⟨bridgeStep w w2, bridgeGaps (w2 :: rest), rfl,
        bridgeStep_start w w2, bridgeStep_word w w2, bridgeStep_endTime_le w w2⟩

theorem bridgeGaps_idem (l : List WordTiming) :
    bridgeGaps (bridgeGaps l) = bridgeGaps l := by
  induction l with
  | nil => rfl
  | cons w1 t ih =>
      cases t with
      | nil => rfl
      | cons w2 rest =>
          obtain ⟨h, t2, heq, hs, _, _⟩ := bridgeGaps_cons_shape w2 rest
          calc bridgeGaps (bridgeGaps (w1 :: w2 :: rest))
              = bridgeGaps (bridgeStep w1 w2 :: h :: t2) := by rw [bridgeGaps, heq]
            _ = bridgeStep (bridgeStep w1 w2) h :: bridgeGaps (h :: t2) := rfl
            _ = bridgeStep w1 w2 :: bridgeGaps (bridgeGaps (w2 :: rest)) := by
                  rw [bridgeStep_absorb w1 w2 h hs, heq]
            _ = bridgeStep w1 w2 :: bridgeGaps (w2 :: rest) := by rw [ih]
            _ = bridgeGaps (w1 :: w2 :: rest) := rfl

theorem bridgeGaps_frames (l : List WordTiming) :
    List.Forall₂ (fun a b => b.word = a.word ∧ b.start = a.start ∧ a.endTime ≤ b.endTime)
      l (bridgeGaps l) := by
  induction l with
  | nil => exact List.Forall₂.nil
  | cons w1 t ih =>
      cases t with
      | nil => exact List.Forall₂.cons ⟨rfl, rfl, le_refl _⟩ List.Forall₂.nil
      | cons w2 rest =>
          exact List.Forall₂.cons
            ⟨bridgeStep_word w1 w2, bridgeStep_start w1 w2, bridgeStep_endTime_le w1 w2⟩ ih

theorem bridgeGaps_getLast? (l : List WordTiming) :
    (bridgeGaps l).getLast? = l.getLast? := by
  induction l with
  | nil => rfl
  | cons w1 t ih =>
      cases t with
      | nil => rfl
      | cons w2 rest =>
          obtain ⟨h, t2, heq, _, _, _⟩ := bridgeGaps_cons_shape w2 rest
          calc (bridgeGaps (w1 :: w2 :: rest)).getLast?
              = (bridgeStep w1 w2 :: h :: t2).getLast? := by rw [bridgeGaps, heq]
            _ = (h :: t2).getLast? := List.getLast?_cons_cons
            _ = (bridgeGaps (w2 :: rest)).getLast? := by rw [heq]
            _ = (w2 :: rest).getLast? := ih
            _ = (w1 :: w2 :: rest).getLast? := List.getLast?_cons_cons.symm

theorem bridgeGaps_get? (l : List WordTiming) :
    ∀ i, (h : i + 1 < l.length) →
      (bridgeGaps l)[i]? = some (bridgeStep (l.get ⟨i, Nat.lt_of_succ_lt h⟩) (l.get ⟨i + 1, h⟩)) := by
  induction l with
  | nil => intro i h; simp at h
  | cons w1 t ih =>
      intro i h
      cases t with
      | nil => simp at h
      | cons w2 rest =>
          cases i with
          | zero => simp [bridgeGaps]
          | succ j =>
              have hj : j + 1 < (w2 :: rest).length := by
                simpa using Nat.lt_of_succ_lt_succ h
              rw [show bridgeGaps (w1 :: w2 :: rest)
                    = bridgeStep w1 w2 :: bridgeGaps (w2 :: rest) from rfl,
                  List.getElem?_cons_succ, ih j hj]
              rfl

end Brainwrought

namespace Brainwrought

theorem scan_le_aux (cs : List CharTiming) (s : ScanState)
    (hmono : List.Pairwise (fun a b => a.start ≤ b.start) cs)
    (hwf : ∀ c ∈ cs, c.start ≤ c.endTime)
    (hnn : ∀ c ∈ cs, 0 ≤ c.start)
    (h1 : ∀ w ∈ s.words, w.start ≤ w.endTime)
    (h2 : 0 ≤ s.wordStart)
    (h3 : s.currentWord ≠ [] → s.wordStart ≤ s.wordEnd)
    (h4 : ∀ c ∈ cs, s.wordStart ≤ c.start) :
    ∀ w ∈ flushScan (cs.foldl scanStep s), w.start ≤ w.endTime := by
  induction cs generalizing s with
  | nil =>
      intro w hw
      unfold flushScan at hw
      split at hw
      · rcases List.mem_append.mp hw with hx | hx
        · exact h1 w hx
        · rcases List.mem_singleton.mp hx with rfl
          exact h3 (by assumption)
      · exact h1 w hw
  | cons c rest ih =>
      rw [List.foldl_cons]
      have hmono' := (List.pairwise_cons.mp hmono).2
      have hhead := (List.pairwise_cons.mp hmono).1
      have hwf' : ∀ x ∈ rest, x.start ≤ x.endTime :=
        fun x hx => hwf x (List.mem_cons_of_mem c hx)
      have hnn' : ∀ x ∈ rest, 0 ≤ x.start :=
        fun x hx => hnn x (List.mem_cons_of_mem c hx)
      have h4' : ∀ x ∈ rest, s.wordStart ≤ x.start :=
        fun x hx => h4 x (List.mem_cons_of_mem c hx)
      have hwfc := hwf c (by simp)
      have hnnc := hnn c (by simp)
      have h4c := h4 c (by simp)
      have hws0 : 0 ≤ (if s.currentWord = [] ∧ ¬pyWhitespace c.character
          then c.start else s.wordStart) := by
        split
        · exact hnnc
        · exact h2
      have hwsc : (if s.currentWord = [] ∧ ¬pyWhitespace c.character
          then c.start else s.wordStart) ≤ c.start := by
        split
        · exact le_refl _
        · exact h4c
      have hwsrest : ∀ x ∈ rest, (if s.currentWord = [] ∧ ¬pyWhitespace c.character
          then c.start else s.wordStart) ≤ x.start := by
        intro x hx
        split
        · exact hhead x hx
        · exact h4' x hx
      by_cases hc : c.character = ' '
      · by_cases hbuf : s.currentWord = []
        · rw [scanStep_space_skip hc hbuf]
          exact ih s hmono' hwf' hnn' h1 h2 h3 h4'
        · rw [scanStep_space_flush hc hbuf]
          refine ih _ hmono' hwf' hnn' ?_ h2 (by simp) h4'
          intro w hw
          rcases List.mem_append.mp hw with hx | hx
          · exact h1 w hx
          · rcases List.mem_singleton.mp hx with rfl
            exact le_trans h4c hwfc
      · rw [scanStep_char hc]
        refine ih _ hmono' hwf' hnn' h1 hws0 (fun _ => le_trans hwsc hwfc) hwsrest

theorem wordsFromChars_le (cs : List CharTiming)
    (hmono : List.Pairwise (fun a b => a.start ≤ b.start) cs)
    (hwf : ∀ c ∈ cs, c.start ≤ c.endTime)
    (hnn : ∀ c ∈ cs, 0 ≤ c.start) :
    ∀ w ∈ wordsFromChars cs, w.start ≤ w.endTime := by
  unfold wordsFromChars scanList
  exact scan_le_aux cs scanInit hmono hwf hnn (by simp [scanInit]) (le_refl 0)
    (by simp [scanInit]) (fun c hc => hnn c hc)

theorem bridgeGaps_le (l : List WordTiming) (h : ∀ w ∈ l, w.start ≤ w.endTime) :
    ∀ w ∈ bridgeGaps l, w.start ≤ w.endTime := by
  induction l with
  | nil => intro w hw; simp [bridgeGaps] at hw
  | cons w1 t ih =>
      cases t with
      | nil =>
          intro w hw
          rcases List.mem_singleton.mp hw with rfl
          exact h w (by simp)
      | cons w2 rest =>
          intro w hw
          rcases List.mem_cons.mp hw with hw1 | hx
          · subst hw1
            calc (bridgeStep w1 w2).start = w1.start := bridgeStep_start w1 w2
              _ ≤ w1.endTime := h w1 (by simp)
              _ ≤ (bridgeStep w1 w2).endTime := bridgeStep_endTime_le w1 w2
          · exact ih (fun x hxx => h x (List.mem_cons_of_mem w1 hxx)) w hx

end Brainwrought

namespace Brainwrought

theorem find?_map_overwrite_ne (s : PState) (k : String) (v : SValue) (k' : String)
    (h : k' ≠ k) :
    (s.map (fun p => if p.1 == k then (k, v) else p)).find? (fun p => p.1 == k')
      = s.find? (fun p => p.1 == k') := by
  induction s with
  | nil => rfl
  | cons p t ih =>
      simp only [List.map_cons]
      by_cases hp : p.1 = k
      · have h1 : (if (p.1 == k) then ((k, v) : String × SValue) else p) = (k, v) := by
          rw [if_pos (beq_iff_eq.mpr hp)]
        rw [h1]
        rw [List.find?_cons_of_neg _ (by simp [Ne.symm h]),
            List.find?_cons_of_neg _ (by simp [hp, Ne.symm h])]
        exact ih
      · have h1 : (if (p.1 == k) then ((k, v) : String × SValue) else p) = p := by
          rw [if_neg (by simp [hp])]
        rw [h1]
        by_cases hk' : p.1 = k'
        · rw [List.find?_cons_of_pos _ (by simp [hk']),
              List.find?_cons_of_pos _ (by simp [hk'])]
        · rw [List.find?_cons_of_neg _ (by simp [hk']),
              List.find?_cons_of_neg _ (by simp [hk'])]
          exact ih

theorem find?_map_overwrite_self (s : PState) (k : String) (v : SValue)
    (hany : s.any (fun p => p.1 == k) = true) :
    (s.map (fun p => if p.1 == k then (k, v) else p)).find? (fun p => p.1 == k)
      = some (k, v) := by
  induction s with
  | nil => simp at hany
  | cons p t ih =>
      simp only [List.map_cons]
      by_cases hp : p.1 = k
      · have h1 : (if (p.1 == k) then ((k, v) : String × SValue) else p) = (k, v) := by
          rw [if_pos (beq_iff_eq.mpr hp)]
        rw [h1]
        rw [List.find?_cons_of_pos _ (by simp)]
      · have h1 : (if (p.1 == k) then ((k, v) : String × SValue) else p) = p := by
          rw [if_neg (by simp [hp])]
        rw [h1]
        rw [List.find?_cons_of_neg _ (by simp [hp])]
        refine ih ?_
        rcases List.any_eq_true.mp hany with ⟨x, hx, hxk⟩
        rcases List.mem_cons.mp hx with rfl | hxt
        · exact absurd (beq_iff_eq.mp hxk) hp
        · exact List.any_eq_true.mpr ⟨x, hxt, hxk⟩

theorem getKey_setKey_self (s : PState) (k : String) (v : SValue) :
    getKey (setKey s k v) k = some v := by
  unfold setKey getKey
  split
  · rename_i hany
    rw [find?_map_overwrite_self s k v hany]
    rfl
  · rename_i hany
    rw [List.find?_append]
    have hnone : s.find? (fun p => p.1 == k) = none := by
      rw [List.find?_eq_none]
      intro x hx hxk
      exact hany (List.any_eq_true.mpr ⟨x, hx, hxk⟩)
    rw [hnone]
    simp

theorem getKey_setKey_ne (s : PState) (k : String) (v : SValue) (k' : String)
    (h : k' ≠ k) :
    getKey (setKey s k v) k' = getKey s k' := by
  unfold setKey getKey
  split
  · rw [find?_map_overwrite_ne s k v k' h]
  · rw [List.find?_append]
    have h2 : ([(k, v)] : PState).find? (fun p => p.1 == k') = none := by
      simp [Ne.symm h]
    rw [h2]
    simp

theorem getKey_setKey_pres (s : PState) (k : String) (v : SValue) (k' : String)
    (h : getKey s k' ≠ none) : getKey (setKey s k v) k' ≠ none := by
  by_cases hk : k' = k
  · subst hk
    rw [getKey_setKey_self]
    simp
  · rw [getKey_setKey_ne s k v k' hk]
    exact h

theorem getKey_mergeOut_pres (out : PState) (s : PState) (k : String)
    (h : getKey s k ≠ none) : getKey (mergeOut s out) k ≠ none := by
  induction out generalizing s with
  | nil => exact h
  | cons kv rest ih =>
      exact ih (setKey s kv.1 kv.2) (getKey_setKey_pres s kv.1 kv.2 k h)

theorem getKey_mergeOut_intro (out : PState) (s : PState) (k : String)
    (h : getKey out k ≠ none) : getKey (mergeOut s out) k ≠ none := by
  induction out generalizing s with
  | nil => simp [getKey] at h
  | cons kv rest ih =>
      by_cases hk : kv.1 = k
      · refine getKey_mergeOut_pres rest (setKey s kv.1 kv.2) k ?_
        rw [hk, ← hk, getKey_setKey_self]
        simp
      · refine ih (setKey s kv.1 kv.2) ?_
        unfold getKey at h
        rw [List.find?_cons_of_neg _ (by simp [hk])] at h
        exact h

theorem runEngine_status (nodes : List NodeResult) (s : PState)
    (hok : ∀ n ∈ nodes, n ≠ NodeResult.raised) :
    (runEngine nodes s).1 = RunStatus.completed := by
  induction nodes generalizing s with
  | nil => rfl
  | cons n rest ih =>
      cases n with
      | ok out => exact ih (mergeOut s out) (fun m hm => hok m (List.mem_cons_of_mem _ hm))
      | raised => exact absurd rfl (hok .raised (by simp))

theorem runEngine_key_pres (nodes : List NodeResult) (s : PState) (k : String)
    (hok : ∀ n ∈ nodes, n ≠ NodeResult.raised)
    (h : getKey s k ≠ none) : getKey (runEngine nodes s).2 k ≠ none := by
  induction nodes generalizing s with
  | nil => exact h
  | cons n rest ih =>
      cases n with
      | ok o =>
          exact ih (mergeOut s o) (fun m hm => hok m (List.mem_cons_of_mem _ hm))
            (getKey_mergeOut_pres o s k h)
      | raised => exact absurd rfl (hok .raised (by simp))

theorem runEngine_key (nodes : List NodeResult) (s : PState)
    (hok : ∀ n ∈ nodes, n ≠ NodeResult.raised)
    (herr : ∃ out, NodeResult.ok out ∈ nodes ∧ getKey out "error" ≠ none) :
    getKey (runEngine nodes s).2 "error" ≠ none := by
  induction nodes generalizing s with
  | nil => rcases herr with ⟨out, hmem, _⟩; simp at hmem
  | cons n rest ih =>
      rcases herr with ⟨out, hmem, hkey⟩
      cases n with
      | ok o =>
          rcases List.mem_cons.mp hmem with heq | hrest
          · injection heq with ho
            rw [ho] at hkey
            exact runEngine_key_pres rest (mergeOut s o) "error"
              (fun m hm => hok m (List.mem_cons_of_mem _ hm))
              (getKey_mergeOut_intro o s "error" hkey)
          · exact ih (mergeOut s o) (fun m hm => hok m (List.mem_cons_of_mem _ hm))
              ⟨out, hrest, hkey⟩
      | raised => exact absurd rfl (hok .raised (by simp))

end Brainwrought

namespace Brainwrought

/-- Claim C1 (counterexample): the word-reconstruction scan does not always
give a closed word the start of its first character.  For the stream
`tabWordStream` = [tab at (5,6), space at (7,8)], the space closes the
buffered word `"\t"` with end `8` (the space's end), but with start `0`
(the stale initial `word_start`), not `5`, because `"\t".strip()` is falsy
so `word_start` is never updated for the tab. -/
theorem claim_C1_counterexample :
    wordsFromChars tabWordStream = [⟨['\t'], 0, 8⟩]
      ∧ tabWordStream[0]?.map (·.start) = some 5
      ∧ tabWordStream[1]?.map (fun c => (c.character, c.endTime)) = some (' ', 8)
      ∧ (0 : ℚ) ≠ 5 := by
  refine ⟨by decide, by decide, by decide, by decide⟩

/-- Claim C1 (amended): for a character stream whose characters are each
either a space or non-whitespace, whenever a space is encountered while the
word buffer (the trailing run of non-space characters) is non-empty, the
scan closes the word using the space character's end — not the last
letter's end — and the start of the word's first character; and for the
`"hi there"` stream the output is exactly `"hi"` then `"there"`, with
`"hi"`'s end equal to the space character's end `3`. -/
theorem claim_C1_scan_close_uses_space_end :
    (∀ (p : List CharTiming) (c : CharTiming) (d : CharTiming) (ds : List CharTiming),
        (∀ x ∈ p, cleanChar x) → c.character = ' ' → trailingRun p = d :: ds →
        (scanList (p ++ [c])).words
          = (scanList p).words ++ [⟨(d :: ds).map (·.character), d.start, c.endTime⟩])
      ∧ wordsFromChars hiThere = [⟨['h', 'i'], 0, 3⟩, ⟨['t', 'h', 'e', 'r', 'e'], 3, 8⟩]
      ∧ hiThere[2]?.map (fun c => (c.character, c.endTime)) = some (' ', 3) := by
  refine ⟨?_, by decide, by decide⟩
  intro p c d ds hclean hc ht
  exact scan_close_on_space p c hclean hc d ds ht

/-- Witness for C1: the amended theorem applied to the two-letter prefix
`"hi"` followed by a space ending at `3`. -/
theorem claim_C1_witness :
    (scanList ([⟨'h', 0, 1⟩, ⟨'i', 1, 2⟩] ++ [⟨' ', 2, 3⟩])).words
      = (scanList [⟨'h', 0, 1⟩, ⟨'i', 1, 2⟩]).words ++ [⟨['h', 'i'], 0, 3⟩] := by
  have h := claim_C1_scan_close_uses_space_end.1 [⟨'h', 0, 1⟩, ⟨'i', 1, 2⟩] ⟨' ', 2, 3⟩
    ⟨'h', 0, 1⟩ [⟨'i', 1, 2⟩] (by decide) rfl (by decide)
  simpa using h

/-- Claim C2: the gap-bridging post-pass acts on every adjacent word pair
exactly as specified: with `gap = next.start − cur.end`, if `0 < gap < 0.5`
the current word's end is raised to the next word's start, otherwise the
pair is untouched; concretely, a pair with gap `0.2` has the first end
raised to the second start, and a pair with gap `0.8` is unchanged. -/
theorem claim_C2_gap_bridging :
    (∀ (l : List WordTiming) (i : Nat) (c n : WordTiming),
        l[i]? = some c → l[i + 1]? = some n →
        ((0 < n.start - c.endTime ∧ n.start - c.endTime < 1/2 →
            (bridgeGaps l)[i]? = some { c with endTime := n.start })
          ∧ (¬(0 < n.start - c.endTime ∧ n.start - c.endTime < 1/2) →
            (bridgeGaps l)[i]? = some c)))
      ∧ bridgeGaps gapSmallPair = [⟨['a'], 0, 12/10⟩, ⟨['b'], 12/10, 2⟩]
      ∧ bridgeGaps gapLargePair = gapLargePair := by
  refine ⟨?_, ?_, ?_⟩
  · intro l i c n hc hn
    rcases List.getElem?_eq_some.mp hn with ⟨hlen, hgn⟩
    rcases List.getElem?_eq_some.mp hc with ⟨hleni, hgc⟩
    have e1 : l.get ⟨i, Nat.lt_of_succ_lt hlen⟩ = c := by
      simpa [List.get_eq_getElem] using hgc
    have e2 : l.get ⟨i + 1, hlen⟩ = n := by
      simpa [List.get_eq_getElem] using hgn
    constructor
    · intro hcond
      rw [bridgeGaps_get? l i hlen, e1, e2]
      congr 1
      simp only [bridgeStep]
      rw [if_pos hcond]
    · intro hcond
      rw [bridgeGaps_get? l i hlen, e1, e2]
      congr 1
      simp only [bridgeStep]
      rw [if_neg hcond]
  · simp only [gapSmallPair, bridgeGaps, bridgeStep]
    norm_num
  · simp only [gapLargePair, bridgeGaps, bridgeStep]
    norm_num

/-- Witness for C2: the bridging theorem applied to the `0.2`-gap pair:
the first word's end is raised to the second word's start `1.2`. -/
theorem claim_C2_witness :
    (bridgeGaps gapSmallPair)[0]? = some ⟨['a'], 0, 12/10⟩ := by
  have h := (claim_C2_gap_bridging.1 gapSmallPair 0 ⟨['a'], 0, 1⟩ ⟨['b'], 12/10, 2⟩
    rfl rfl).1 (by norm_num)
  exact h

/-- Claim C5: the three edge cases of the word-reconstruction scan: the
empty stream yields the empty word list; a stream ending in a non-space
character still flushes the trailing word, whose end is that last
character's end; and no output word is ever empty (so consecutive spaces
cannot produce empty words) — concretely, a stream with three consecutive
spaces yields exactly its two non-empty words. -/
theorem claim_C5_scan_edge_cases :
    wordsFromChars [] = []
      ∧ (∀ (cs : List CharTiming) (c : CharTiming), c.character ≠ ' ' →
          ∃ w, (wordsFromChars (cs ++ [c])).getLast? = some w
            ∧ w.endTime = c.endTime ∧ w.word ≠ [])
      ∧ (∀ (cs : List CharTiming), ∀ w ∈ wordsFromChars cs, w.word ≠ [])
      ∧ wordsFromChars multiSpaceStream = [⟨['a'], 0, 2⟩, ⟨['b'], 4, 5⟩] := by
  exact ⟨rfl, wordsFromChars_snoc_nonspace,
    fun cs w hw => (wordsFromChars_sound cs w hw).1, by decide⟩

/-- Witness for C5: the trailing-flush clause applied to the stream
`"hi"` with no final space, and the no-empty-word clause applied to the
word produced by `multiSpaceStream`. -/
theorem claim_C5_witness :
    (∃ w, (wordsFromChars ([⟨'h', 0, 1⟩] ++ [⟨'i', 1, 2⟩])).getLast? = some w
        ∧ w.endTime = 2 ∧ w.word ≠ [])
      ∧ (⟨['a'], 0, 2⟩ : WordTiming).word ≠ [] := by
  constructor
  · exact claim_C5_scan_edge_cases.2.1 [⟨'h', 0, 1⟩] ⟨'i', 1, 2⟩ (by decide)
  · exact claim_C5_scan_edge_cases.2.2.1 multiSpaceStream ⟨['a'], 0, 2⟩ (by decide)

/-- Claim C6 (counterexample): not every whitespace character terminates the
word buffer — only the space character `" "` does.  In `tabInsideStream`
(`'a'`, tab, `'b'`), the tab is appended to the buffer, and the single
output word contains the whitespace character `'\t'`. -/
theorem claim_C6_counterexample :
    wordsFromChars tabInsideStream = [⟨['a', '\t', 'b'], 0, 3⟩]
      ∧ tabInsideStream[1]?.map (·.character) = some '\t'
      ∧ '\t'.isWhitespace = true
      ∧ '\t' ∈ (['a', '\t', 'b'] : List Char) := by
  refine ⟨by decide, by decide, by decide, by decide⟩

/-- Claim C6 (amended): word boundaries are derived deterministically from
the space character in the stream: every space character empties the word
buffer, and consequently no output word record contains a space. -/
theorem claim_C6_space_boundaries :
    (∀ (s : ScanState) (ts : CharTiming), ts.character = ' ' →
        (scanStep s ts).currentWord = [])
      ∧ (∀ (cs : List CharTiming), ∀ w ∈ wordsFromChars cs, ' ' ∉ w.word) := by
  exact ⟨scanStep_space_clears, fun cs w hw => (wordsFromChars_sound cs w hw).2⟩

/-- Witness for C6: a space clears the initial scan state's buffer, and the
word produced by `tabInsideStream` contains no space. -/
theorem claim_C6_witness :
    (scanStep scanInit ⟨' ', 0, 1⟩).currentWord = []
      ∧ ' ' ∉ (['a', '\t', 'b'] : List Char) := by
  constructor
  · exact claim_C6_space_boundaries.1 scanInit ⟨' ', 0, 1⟩ rfl
  · exact claim_C6_space_boundaries.2 tabInsideStream ⟨['a', '\t', 'b'], 0, 3⟩ (by decide)

/-- Claim C7 (counterexample): with monotone starts and per-character
`end ≥ start` but negative timestamps, the output can violate
`end ≥ start`: on `negativeTimeStream` the tab-led word keeps the stale
initial `word_start = 0` and is closed at the space's end `-2`. -/
theorem claim_C7_counterexample :
    List.Pairwise (fun a b => a.start ≤ b.start) negativeTimeStream
      ∧ (∀ c ∈ negativeTimeStream, c.start ≤ c.endTime)
      ∧ wordTimestamps negativeTimeStream = [⟨['\t'], 0, -2⟩]
      ∧ ¬((0 : ℚ) ≤ -2) := by
  refine ⟨by decide, by decide, by decide, by decide⟩

/-- Claim C7 (amended): for a character stream with monotonically
non-decreasing non-negative starts and per-character `end ≥ start`, every
word produced by the reconstruction — including after gap bridging —
satisfies `end ≥ start`. -/
theorem claim_C7_end_ge_start (cs : List CharTiming)
    (hmono : List.Pairwise (fun a b => a.start ≤ b.start) cs)
    (hwf : ∀ c ∈ cs, c.start ≤ c.endTime)
    (hnn : ∀ c ∈ cs, 0 ≤ c.start) :
    ∀ w ∈ wordTimestamps cs, w.start ≤ w.endTime := by
  unfold wordTimestamps
  exact bridgeGaps_le _ (wordsFromChars_le cs hmono hwf hnn)

/-- Witness for C7: the amended theorem applied to the `"hi there"` stream
and its first output word. -/
theorem claim_C7_witness :
    (⟨['h', 'i'], 0, 3⟩ : WordTiming).start ≤ (⟨['h', 'i'], 0, 3⟩ : WordTiming).endTime := by
  have h1 : wordsFromChars hiThere
      = [⟨['h', 'i'], 0, 3⟩, ⟨['t', 'h', 'e', 'r', 'e'], 3, 8⟩] := by decide
  have h2 : wordTimestamps hiThere
      = [⟨['h', 'i'], 0, 3⟩, ⟨['t', 'h', 'e', 'r', 'e'], 3, 8⟩] := by
    unfold wordTimestamps
    rw [h1]
    simp only [bridgeGaps, bridgeStep]
    norm_num
  refine claim_C7_end_ge_start hiThere (by decide) (by decide) (by decide) _ ?_
  rw [h2]
  simp

end Brainwrought

namespace Brainwrought

/-- Claim C3: the bounded tool-calling loop (agent wired back to itself
through the `should_continue` router with labels `continue`/`respond`),
run against the configured maximum iteration count `15`, fails with a
fatal `RecursionLimitExceeded` when forced through 16 `continue` routings;
with 15 `continue` routings followed by `respond` it completes; and the
failure is confined to that run — a sibling run of the same engine value
still completes. -/
theorem claim_C3_recursion_limit :
    runBoundedLoop 15 (List.replicate 16 RouteLabel.cont)
        = Except.error EngineError.recursionLimitExceeded
      ∧ runBoundedLoop 15 (List.replicate 15 RouteLabel.cont ++ [RouteLabel.respond])
        = Except.ok 15
      ∧ runBoundedLoop 15 [RouteLabel.respond] = Except.ok 0 := by
  refine ⟨rfl, rfl, rfl⟩

/-- Claim C4: in any run whose nodes all catch their collaborators'
failures internally (no node raises), if some node's partial output
contains an `"error"` key, the run completes with status `completed` and
the `"error"` key is present in the final state. -/
theorem claim_C4_error_as_data (nodes : List NodeResult) (s0 : PState)
    (hok : ∀ n ∈ nodes, n ≠ NodeResult.raised)
    (herr : ∃ out, NodeResult.ok out ∈ nodes ∧ getKey out "error" ≠ none) :
    (runEngine nodes s0).1 = RunStatus.completed
      ∧ getKey (runEngine nodes s0).2 "error" ≠ none := by
  exact ⟨runEngine_status nodes s0 hok, runEngine_key nodes s0 hok herr⟩

/-- Witness for C4: a run of the single node output
`social_media_trends_node` returns when it catches a failure
(meme.py lines 149-153) completes and keeps the `"error"` key. -/
theorem claim_C4_witness :
    (runEngine [NodeResult.ok (trendsNodeErrorOutput "boom")] []).1 = RunStatus.completed
      ∧ getKey (runEngine [NodeResult.ok (trendsNodeErrorOutput "boom")] []).2 "error"
        ≠ none := by
  exact claim_C4_error_as_data [NodeResult.ok (trendsNodeErrorOutput "boom")] []
    (by decide) ⟨trendsNodeErrorOutput "boom", by decide, by decide⟩

/-- Claim C8: the job-status machine of `app_space.py`: every reachable
status lies in `{PENDING, RUNNING, COMPLETED, FAILED, INTERRUPTED}`
(reachability encodes the transitions `PENDING → RUNNING → COMPLETED |
FAILED` plus the startup sweep); the startup sweep forcibly marks a
`RUNNING` job `INTERRUPTED` and leaves every other status unchanged; and a
job that is no longer pending or running is in one of `COMPLETED`,
`FAILED`, `INTERRUPTED`. -/
theorem claim_C8_job_status_machine :
    (∀ s, JobReachable s →
        s ∈ ["PENDING", "RUNNING", "COMPLETED", "FAILED", "INTERRUPTED"])
      ∧ recoverSweepStatus "RUNNING" = "INTERRUPTED"
      ∧ (∀ s, s ≠ "RUNNING" → recoverSweepStatus s = s)
      ∧ (∀ s, JobReachable s → s ≠ "PENDING" → s ≠ "RUNNING" →
          s ∈ ["COMPLETED", "FAILED", "INTERRUPTED"]) := by
  have hmem : ∀ s, JobReachable s →
      s ∈ ["PENDING", "RUNNING", "COMPLETED", "FAILED", "INTERRUPTED"] := by
    intro s h
    induction h with
    | created => simp
    | started _ _ => simp
    | finishedOk _ _ => simp
    | finishedErr _ _ => simp
    | swept s' h ih =>
        unfold recoverSweepStatus
        split
        · simp
        · exact ih
  refine ⟨hmem, rfl, ?_, ?_⟩
  · intro s hs
    unfold recoverSweepStatus
    rw [if_neg hs]
  · intro s h hp hr
    have hm := hmem s h
    simp only [List.mem_cons, List.mem_singleton] at hm ⊢
    rcases hm with h1 | h1 | h1 | h1 | h1
    · exact absurd h1 hp
    · exact absurd h1 hr
    · exact Or.inl h1
    · exact Or.inr (Or.inl h1)
    · exact Or.inr (Or.inr h1)

/-- Witness for C8: `INTERRUPTED` — reached by creating a job, starting it,
and applying the startup sweep — is among the five statuses. -/
theorem claim_C8_witness :
    "INTERRUPTED" ∈ ["PENDING", "RUNNING", "COMPLETED", "FAILED", "INTERRUPTED"] := by
  have h0 : JobReachable (recoverSweepStatus "RUNNING") :=
    JobReachable.swept "RUNNING" (JobReachable.started JobReachable.created)
  have h : JobReachable "INTERRUPTED" := by
    simpa [recoverSweepStatus] using h0
  exact claim_C8_job_status_machine.1 "INTERRUPTED" h

/-- Claim C9: `social_media_trends_node` writes its result under the key
`"trends_analysis"`, while `hook_concept_node` and `meme_concept_node`
read `"trend_analysis"` (without the `s`); hence, for every pipeline state
that does not already contain `"trend_analysis"`, the trend-analysis input
consumed downstream is `None`, whatever the research produced — for both
the success and the error output of the trends node. -/
theorem claim_C9_trend_key_mismatch (s0 : PState)
    (h : getKey s0 "trend_analysis" = none) (v : SValue) (e : String) :
    getKey (mergeOut s0 (trendsNodeSuccessOutput v)) "trends_analysis" = some v
      ∧ hookConceptTrendInput (mergeOut s0 (trendsNodeSuccessOutput v)) = none
      ∧ memeConceptTrendInput (mergeOut s0 (trendsNodeSuccessOutput v)) = none
      ∧ hookConceptTrendInput (mergeOut s0 (trendsNodeErrorOutput e)) = none
      ∧ memeConceptTrendInput (mergeOut s0 (trendsNodeErrorOutput e)) = none := by
  have hsucc : mergeOut s0 (trendsNodeSuccessOutput v)
      = setKey (setKey s0 "trends_analysis" v) "trends_analysis_complete"
          (.boolean true) := rfl
  have herr2 : mergeOut s0 (trendsNodeErrorOutput e)
      = setKey (setKey (setKey s0 "trends_analysis" .null)
          "trends_analysis_complete" (.boolean false)) "error" (.str e) := rfl
  refine ⟨?_, ?_, ?_, ?_, ?_⟩
  · rw [hsucc, getKey_setKey_ne _ _ _ _ (by decide), getKey_setKey_self]
  · unfold hookConceptTrendInput
    rw [hsucc, getKey_setKey_ne _ _ _ _ (by decide),
      getKey_setKey_ne _ _ _ _ (by decide)]
    exact h
  · unfold memeConceptTrendInput
    rw [hsucc, getKey_setKey_ne _ _ _ _ (by decide),
      getKey_setKey_ne _ _ _ _ (by decide)]
    exact h
  · unfold hookConceptTrendInput
    rw [herr2, getKey_setKey_ne _ _ _ _ (by decide),
      getKey_setKey_ne _ _ _ _ (by decide), getKey_setKey_ne _ _ _ _ (by decide)]
    exact h
  · unfold memeConceptTrendInput
    rw [herr2, getKey_setKey_ne _ _ _ _ (by decide),
      getKey_setKey_ne _ _ _ _ (by decide), getKey_setKey_ne _ _ _ _ (by decide)]
    exact h

/-- Witness for C9: starting from the empty state, after the trends node's
success output the downstream read of `"trend_analysis"` is `None`. -/
theorem claim_C9_witness :
    hookConceptTrendInput (mergeOut [] (trendsNodeSuccessOutput (.str "analysis")))
      = none := by
  exact (claim_C9_trend_key_mismatch [] rfl (.str "analysis") "boom").2.1

/-- Claim C10: the gap-bridging post-pass is idempotent and
frame-preserving: applying it twice equals applying it once; it preserves
every word's text and start and only ever raises an end (`Forall₂` also
forces length preservation); and the last element — in particular the last
word's end — is unchanged. -/
theorem claim_C10_bridging_algebra (l : List WordTiming) :
    bridgeGaps (bridgeGaps l) = bridgeGaps l
      ∧ List.Forall₂ (fun a b => b.word = a.word ∧ b.start = a.start
          ∧ a.endTime ≤ b.endTime) l (bridgeGaps l)
      ∧ (bridgeGaps l).getLast? = l.getLast? :=
  ⟨bridgeGaps_idem l, bridgeGaps_frames l, bridgeGaps_getLast? l⟩

end Brainwrought
